import Mathlib

/-
Verification of the image-analyzer file-tree extraction core
(docker_client.py, models.py).

The tar-entry-to-tree fold of DockerManager.get_image_files, the
serialization dict_to_nodes, and the metadata-extraction control flow of
DockerManager.get_image_metadata are embedded shallowly below.  Python
dicts (insertion ordered, unique keys) are modelled as association lists;
Python mutation of the nested dict is modelled by functional update.
-/

namespace ImageAnalyzer

/-- Characters removed at both ends of a member name by the Python
expression member.name.strip with argument "./" — any dot or slash. -/
def isStripChar (c : Char) : Bool := c == '.' || c == '/'

/-- Embedding of the Python expression member.name.strip with argument
"./": remove all leading and trailing dot and slash characters. -/
def stripDotSlash (s : String) : String :=
  String.mk (((s.data.dropWhile isStripChar).reverse.dropWhile isStripChar).reverse)

/-- Helper for splitSlash: accumulates the current segment in reverse. -/
def splitSlashAux : List Char → List Char → List String
  | [], acc => [String.mk acc.reverse]
  | c :: cs, acc =>
      if c = '/' then String.mk acc.reverse :: splitSlashAux cs []
      else splitSlashAux cs (c :: acc)

/-- Embedding of Python str.split with separator "/": the empty string
splits to a list holding one empty segment, and consecutive slashes
produce empty segments, exactly as in Python. -/
def splitSlash (s : String) : List String := splitSlashAux s.data []

/-- Embedding of the expression member.name.strip("./").split("/") from
get_image_files (docker_client.py line 74). -/
def pathParts (name : String) : List String := splitSlash (stripDotSlash name)

/-- One tar archive member as seen by the fold: its raw name, the result
of member.isdir(), and member.size. -/
structure TarMember where
  name : String
  isdir : Bool
  size : Nat

/-- Internal tree node of get_image_files: the Python dict value holding
name, type, size and a children dict.  The children dict is modelled as
an insertion-ordered association list. -/
inductive NodeDict : Type where
  | mk (name : String) (type : String) (size : Nat)
       (children : List (String × NodeDict)) : NodeDict

def NodeDict.name : NodeDict → String
  | .mk n _ _ _ => n

def NodeDict.type : NodeDict → String
  | .mk _ t _ _ => t

def NodeDict.size : NodeDict → Nat
  | .mk _ _ s _ => s

def NodeDict.children : NodeDict → List (String × NodeDict)
  | .mk _ _ _ c => c

def NodeDict.setChildren : NodeDict → List (String × NodeDict) → NodeDict
  | .mk n t s _, c => .mk n t s c

/-- Lookup in the children association list (Python: part in
current_level / current_level of part). -/
def assocFind (k : String) : List (String × NodeDict) → Option NodeDict
  | [] => none
  | (k2, v) :: tl => if k2 = k then some v else assocFind k tl

/-- Functional update of the entry at a key (Python mutates the dict
value in place). -/
def assocMapAt (k : String) (f : NodeDict → NodeDict) :
    List (String × NodeDict) → List (String × NodeDict)
  | [] => []
  | (k2, v) :: tl => if k2 = k then (k2, f v) :: tl else (k2, v) :: assocMapAt k f tl

/-- Embedding of the inner for-loop of get_image_files (docker_client.py
lines 81 to 91): walk the path segments, create a node only when the
segment is absent (an existing node is left untouched), then descend
into its children. -/
def insertParts (isdir : Bool) (size : Nat) :
    List String → List (String × NodeDict) → List (String × NodeDict)
  | [], level => level
  | part :: rest, level =>
    let grown :=
      match assocFind part level with
      | some _ => level
      | none =>
          let isDir := if rest.isEmpty then isdir else true
          level ++ [(part, NodeDict.mk part (if isDir then "directory" else "file")
                            (if rest.isEmpty then size else 0) [])]
    assocMapAt part (fun nd => nd.setChildren (insertParts isdir size rest nd.children)) grown

/-- Embedding of one iteration of the member loop of get_image_files
(docker_client.py lines 73 to 91): compute the path parts, skip empty or
root-resolving names, skip entries deeper than max_depth, otherwise fold
the entry into the tree. -/
def processMember (maxDepth : Nat) (tree : List (String × NodeDict)) (m : TarMember) :
    List (String × NodeDict) :=
  let path_parts := pathParts m.name
  if path_parts = [] ∨ path_parts = [""] then tree
  else if path_parts.length > maxDepth then tree
  else insertParts m.isdir m.size path_parts tree

/-- The whole member loop: fold all archive members into the tree,
starting from the empty dict. -/
def buildTree (maxDepth : Nat) (ms : List TarMember) : List (String × NodeDict) :=
  ms.foldl (processMember maxDepth) []

/-- Output node, embedding the pydantic FileNode of models.py: name,
type, size, and an optional children list (None when absent). -/
inductive FileNode : Type where
  | mk (name : String) (type : String) (size : Nat)
       (children : Option (List FileNode)) : FileNode

def FileNode.name : FileNode → String
  | .mk n _ _ _ => n

def FileNode.type : FileNode → String
  | .mk _ t _ _ => t

def FileNode.size : FileNode → Nat
  | .mk _ _ s _ => s

def FileNode.children : FileNode → Option (List FileNode)
  | .mk _ _ _ c => c

/-- Strict lexicographic comparison of char lists, embedding Python
string comparison (code-point wise, hence byte-wise for the UTF-8
encodings compared here). -/
def charListLt : List Char → List Char → Bool
  | [], [] => false
  | [], _ :: _ => true
  | _ :: _, [] => false
  | a :: as, b :: bs => if a < b then true else if b < a then false else charListLt as bs

/-- Python string less-than on names. -/
def strLt (a b : String) : Bool := charListLt a.data b.data

/-- Strict comparison of the Python sort key (x.type != 'directory',
x.name) used in dict_to_nodes (docker_client.py line 103): directories
form the smaller group, names break ties lexicographically. -/
def nodeLt (a b : FileNode) : Bool :=
  let ga : Bool := a.type != "directory"
  let gb : Bool := b.type != "directory"
  (!ga && gb) || (ga == gb && strLt a.name b.name)

/-- Insert a node into an already sorted list, after every node whose key
does not exceed it; folding this over a list is a stable sort by the
Python key, matching the semantics of Python sorted. -/
def insertSorted (x : FileNode) : List FileNode → List FileNode
  | [] => [x]
  | y :: ys => if nodeLt x y then x :: y :: ys else y :: insertSorted x ys

/-- Embedding of the Python call sorted(nodes, key ...) in dict_to_nodes:
a stable sort by the key (x.type != 'directory', x.name). -/
def sortNodes (l : List FileNode) : List FileNode :=
  l.foldl (fun acc x => insertSorted x acc) []

/- Embedding of dict_to_nodes (docker_client.py lines 93 to 103):
nodeToFile converts one dict node to a FileNode, with None for an empty
children dict; dictToNodesCore converts a children dict to the unsorted
node list in insertion order. -/
mutual
def nodeToFile : NodeDict → FileNode
  | .mk n t s c =>
      FileNode.mk n t s (if c.isEmpty then none else some (sortNodes (dictToNodesCore c)))

def dictToNodesCore : List (String × NodeDict) → List FileNode
  | [] => []
  | (_, v) :: tl => nodeToFile v :: dictToNodesCore tl
end

/-- Full dict_to_nodes: convert, then sort the level. -/
def dict_to_nodes (d : List (String × NodeDict)) : List FileNode :=
  sortNodes (dictToNodesCore d)

/-- Embedding of the tree-building and serialization pipeline of
get_image_files, as a function of the decoded archive member sequence
and the max_depth argument. -/
def get_image_files (maxDepth : Nat) (ms : List TarMember) : List FileNode :=
  dict_to_nodes (buildTree maxDepth ms)

/-- Lookup of the node at a (nonempty) segment path in the internal
tree; the synthetic root itself is not addressable. -/
def findPath : List String → List (String × NodeDict) → Option NodeDict
  | [], _ => none
  | k :: rest, level =>
      match assocFind k level with
      | none => none
      | some nd =>
          match rest with
          | [] => some nd
          | _ :: _ => findPath rest nd.children

/-- Modelled from the spec (section 3, Entry Record): path segments
obtained by splitting the member name on "/" and discarding empty
leading and trailing segments, keeping every other character.  This is
the rule the spec states; it is compared against pathParts, which
embeds what the code actually does. -/
def specSegments (name : String) : List String :=
  (((splitSlash name).dropWhile (· == "")).reverse.dropWhile (· == "")).reverse

/- Per-level well-formedness of the internal tree: each entry stores its
own key as its name, keys are pairwise distinct at the level, and the
children are recursively well formed.  This is exactly the invariant a
Python dict keyed by segment gives for free. -/
mutual
def ndWF : NodeDict → Bool
  | .mk _ _ _ c => levelWF c

def levelWF : List (String × NodeDict) → Bool
  | [] => true
  | (k, v) :: tl =>
      (v.name == k) && !((tl.map Prod.fst).contains k) && ndWF v && levelWF tl
end

/- Level predicate holding at every level of a serialized forest. -/
mutual
def nodeLevelsOk (p : List FileNode → Bool) : FileNode → Bool
  | .mk _ _ _ none => true
  | .mk _ _ _ (some l) => p l && listLevelsOk p l

def listLevelsOk (p : List FileNode → Bool) : List FileNode → Bool
  | [] => true
  | x :: xs => nodeLevelsOk p x && listLevelsOk p xs
end

/-- A level predicate applied to a whole serialized forest, top level
included. -/
def treeLevelsOk (p : List FileNode → Bool) (l : List FileNode) : Bool :=
  p l && listLevelsOk p l

/-- Level predicate: no inversions of the Python sort key anywhere in
the list. -/
def levelSortedOk : List FileNode → Bool
  | [] => true
  | x :: xs => xs.all (fun y => !(nodeLt y x)) && levelSortedOk xs

/-- Level predicate: sibling names are pairwise distinct. -/
def levelNamesOk : List FileNode → Bool
  | [] => true
  | x :: xs => !((xs.map FileNode.name).contains x.name) && levelNamesOk xs

/-- Level predicate: no node of this level carries an empty-but-present
children list. -/
def noEmptyOk (l : List FileNode) : Bool :=
  l.all fun x =>
    match x.children with
    | none => true
    | some c => !c.isEmpty

/-- Outcome of the docker images.pull call for a given identifier, as
observed by get_image_metadata: success, an ImageNotFound error, an
APIError with a status code, or any other exception. -/
inductive PullOutcome : Type where
  | success : PullOutcome
  | imageNotFound : PullOutcome
  | apiError (status : Nat) : PullOutcome
  | otherError : PullOutcome

/-- Embedding of the DockerMetadata model of models.py (history entries
kept abstract as strings). -/
structure DockerMetadata where
  image_id : String
  author : Option String
  os : String
  architecture : String
  size : Nat
  user : Option String
  exposed_ports : Option (List String)
  env_vars : Option (List String)
  history : List String

/-- Abstract state of the external docker runtime as seen by
get_image_metadata: whether the client initialized, which images are
present locally, what a pull of each identifier would do, and the
metadata the runtime reports for an available image. -/
structure DockerEnv where
  clientInit : Bool
  localImages : List String
  pullOutcome : String → PullOutcome
  attrs : String → DockerMetadata

/-- Result of get_image_metadata: the metadata, an HTTPException with
status 404 (image not found locally or on Docker Hub), or a generic
raised Exception. -/
inductive MetaResult : Type where
  | ok (m : DockerMetadata) : MetaResult
  | httpNotFound : MetaResult
  | genericError : MetaResult

/-- Embedding of DockerManager.get_image_metadata (docker_client.py
lines 15 to 53) over the abstract runtime state.  The Bool records
whether images.pull was invoked.  A locally present image is returned
without pulling; otherwise the pull outcome decides: ImageNotFound and
APIError with status 404 are surfaced as the 404 HTTPException, any
other failure as a generic exception. -/
def get_image_metadata (env : DockerEnv) (name : String) : MetaResult × Bool :=
  if env.clientInit = false then (.genericError, false)
  else if name ∈ env.localImages then (.ok (env.attrs name), false)
  else
    match env.pullOutcome name with
    | .success => (.ok (env.attrs name), true)
    | .imageNotFound => (.httpNotFound, true)
    | .apiError s => if s = 404 then (.httpNotFound, true) else (.genericError, true)
    | .otherError => (.genericError, true)


/-- Basic fact: setChildren keeps the stored name. -/
theorem setChildren_name (nd : NodeDict) (c : List (String × NodeDict)) :
    (nd.setChildren c).name = nd.name := by
  cases nd <;> rfl

theorem setChildren_type (nd : NodeDict) (c : List (String × NodeDict)) :
    (nd.setChildren c).type = nd.type := by
  cases nd <;> rfl

theorem setChildren_size (nd : NodeDict) (c : List (String × NodeDict)) :
    (nd.setChildren c).size = nd.size := by
  cases nd <;> rfl

theorem setChildren_children (nd : NodeDict) (c : List (String × NodeDict)) :
    (nd.setChildren c).children = c := by
  cases nd <;> rfl

theorem assocFind_mapAt_self (k : String) (f : NodeDict → NodeDict)
    (l : List (String × NodeDict)) :
    assocFind k (assocMapAt k f l) = (assocFind k l).map f := by
  induction l with
  | nil => rfl
  | cons hd tl ih =>
      obtain ⟨k2, v⟩ := hd
      by_cases h : k2 = k <;> simp [assocFind, assocMapAt, h, ih]

theorem assocFind_mapAt_ne (j k : String) (f : NodeDict → NodeDict)
    (l : List (String × NodeDict)) (h : j ≠ k) :
    assocFind k (assocMapAt j f l) = assocFind k l := by
  induction l with
  | nil => rfl
  | cons hd tl ih =>
      obtain ⟨k2, v⟩ := hd
      by_cases h2 : k2 = j
      · subst h2
        simp [assocFind, assocMapAt, h]
      · by_cases h3 : k2 = k
        · subst h3
          simp [assocFind, assocMapAt, h2]
        · simp [assocFind, assocMapAt, h2, h3, ih]

theorem assocFind_append_some (k : String) (l1 l2 : List (String × NodeDict))
    (v : NodeDict) (h : assocFind k l1 = some v) :
    assocFind k (l1 ++ l2) = some v := by
  induction l1 with
  | nil => simp [assocFind] at h
  | cons hd tl ih =>
      obtain ⟨k2, w⟩ := hd
      by_cases h2 : k2 = k <;> simp_all [assocFind]

theorem assocFind_append_none (k : String) (l1 l2 : List (String × NodeDict))
    (h : assocFind k l1 = none) :
    assocFind k (l1 ++ l2) = assocFind k l2 := by
  induction l1 with
  | nil => rfl
  | cons hd tl ih =>
      obtain ⟨k2, w⟩ := hd
      by_cases h2 : k2 = k <;> simp_all [assocFind]

theorem findPath_nil (p : List String) :
    findPath p ([] : List (String × NodeDict)) = none := by
  cases p <;> simp [findPath, assocFind]

/-- Unfolding: a one-segment path resolves by a level lookup. -/
theorem findPath_single (k : String) (level : List (String × NodeDict)) :
    findPath [k] level =
      match assocFind k level with
      | none => none
      | some nd1 => some nd1 := by
  cases h : assocFind k level <;> simp [findPath, h]

theorem findPath_single_some (k : String) (level : List (String × NodeDict))
    (nd1 : NodeDict) (h : assocFind k level = some nd1) :
    findPath [k] level = some nd1 := by
  rw [findPath_single, h]

theorem findPath_cons2 (k q : String) (qrest : List String)
    (level : List (String × NodeDict)) (nd1 : NodeDict)
    (h : assocFind k level = some nd1) :
    findPath (k :: q :: qrest) level = findPath (q :: qrest) nd1.children := by
  simp [findPath, h]

theorem findPath_cons_none (k : String) (rest : List String)
    (level : List (String × NodeDict)) (h : assocFind k level = none) :
    findPath (k :: rest) level = none := by
  cases rest <;> simp [findPath, h]

theorem findPath_mapAt_ne (j k : String) (rest : List String)
    (f : NodeDict → NodeDict) (l : List (String × NodeDict)) (h : j ≠ k) :
    findPath (k :: rest) (assocMapAt j f l) = findPath (k :: rest) l := by
  cases hf : assocFind k l with
  | none =>
      rw [findPath_cons_none k rest l hf,
        findPath_cons_none k rest _ ((assocFind_mapAt_ne j k f l h).trans hf)]
  | some nd1 =>
      have hf2 : assocFind k (assocMapAt j f l) = some nd1 :=
        (assocFind_mapAt_ne j k f l h).trans hf
      cases rest with
      | nil => rw [findPath_single_some k _ nd1 hf2, findPath_single_some k l nd1 hf]
      | cons q qrest =>
          rw [findPath_cons2 k q qrest _ nd1 hf2, findPath_cons2 k q qrest l nd1 hf]

/-- Unfolding equation for insertParts on a nonempty segment list. -/
theorem insertParts_cons (b : Bool) (s : Nat) (part : String) (rest : List String)
    (level : List (String × NodeDict)) :
    insertParts b s (part :: rest) level =
      assocMapAt part (fun nd => nd.setChildren (insertParts b s rest nd.children))
        (match assocFind part level with
         | some _ => level
         | none => level ++ [(part, NodeDict.mk part
             (if (if rest.isEmpty then b else true) then "directory" else "file")
             (if rest.isEmpty then s else 0) [])]) := rfl

/-- Attribute preservation: a node already present at some path keeps its
name, type and size across any further insertParts call — the code never
overwrites an existing node (docker_client.py line 83 guards creation
with: part not in current_level). -/
theorem findPath_insertParts_preserve :
    ∀ (parts : List String) (b : Bool) (s : Nat) (level : List (String × NodeDict))
      (p : List String) (nd : NodeDict),
      findPath p level = some nd →
      ∃ nd2, findPath p (insertParts b s parts level) = some nd2 ∧
        nd2.name = nd.name ∧ nd2.type = nd.type ∧ nd2.size = nd.size := by
  intro parts
  induction parts with
  | nil =>
      intro b s level p nd h
      exact ⟨nd, h, rfl, rfl, rfl⟩
  | cons part rest ih =>
      intro b s level p nd h
      cases p with
      | nil => simp [findPath] at h
      | cons k prest =>
        cases hf : assocFind k level with
        | none =>
            rw [findPath_cons_none k prest level hf] at h
            exact absurd h (by simp)
        | some nd1 =>
          rw [insertParts_cons]
          have hgrown : ∀ g : List (String × NodeDict), assocFind k g = some nd1 →
              ∃ nd2, findPath (k :: prest)
                  (assocMapAt part
                    (fun nd => nd.setChildren (insertParts b s rest nd.children)) g) =
                  some nd2 ∧ nd2.name = nd.name ∧ nd2.type = nd.type ∧ nd2.size = nd.size := by
            intro g hg
            by_cases hkp : k = part
            · subst hkp
              have hfind : assocFind k
                  (assocMapAt k (fun nd => nd.setChildren (insertParts b s rest nd.children)) g)
                  = some (nd1.setChildren (insertParts b s rest nd1.children)) := by
                rw [assocFind_mapAt_self, hg]; rfl
              cases prest with
              | nil =>
                  rw [findPath_single_some k level nd1 hf] at h
                  have hnd : nd1 = nd := by injection h
                  subst hnd
                  refine ⟨nd1.setChildren (insertParts b s rest nd1.children),
                    findPath_single_some k _ _ hfind, ?_, ?_, ?_⟩
                  · exact setChildren_name _ _
                  · exact setChildren_type _ _
                  · exact setChildren_size _ _
              | cons q qrest =>
                  rw [findPath_cons2 k q qrest level nd1 hf] at h
                  obtain ⟨nd2, h2, hn, ht, hs⟩ := ih b s nd1.children (q :: qrest) nd h
                  refine ⟨nd2, ?_, hn, ht, hs⟩
                  rw [findPath_cons2 k q qrest _ _ hfind, setChildren_children]
                  exact h2
            · rw [findPath_mapAt_ne part k prest _ g (fun hq => hkp hq.symm)]
              cases prest with
              | nil =>
                  rw [findPath_single_some k level nd1 hf] at h
                  have hnd : nd1 = nd := by injection h
                  subst hnd
                  exact ⟨nd1, findPath_single_some k g nd1 hg, rfl, rfl, rfl⟩
              | cons q qrest =>
                  rw [findPath_cons2 k q qrest level nd1 hf] at h
                  exact ⟨nd, by rw [findPath_cons2 k q qrest g nd1 hg]; exact h, rfl, rfl, rfl⟩
          cases hpl : assocFind part level with
          | some w => exact hgrown level hf
          | none =>
              exact hgrown
                (level ++ [(part, NodeDict.mk part
                  (if (if rest.isEmpty then b else true) then "directory" else "file")
                  (if rest.isEmpty then s else 0) [])])
                (assocFind_append_some k level _ nd1 hf)

/-- Origin of a node found after an insertParts call: it was already
there with the same attributes, or it was freshly created — as an
intermediate (non-terminal) segment with type directory and size 0, or
as the terminal segment of the inserted path carrying the entry's own
type and size. -/
theorem findPath_insertParts_origin :
    ∀ (parts : List String) (b : Bool) (s : Nat) (level : List (String × NodeDict))
      (p : List String) (nd : NodeDict),
      findPath p (insertParts b s parts level) = some nd →
      (∃ nd0, findPath p level = some nd0 ∧
        nd.name = nd0.name ∧ nd.type = nd0.type ∧ nd.size = nd0.size)
      ∨ (nd.type = "directory" ∧ nd.size = 0)
      ∨ (p = parts ∧ nd.type = (if b then "directory" else "file") ∧ nd.size = s) := by
  intro parts
  induction parts with
  | nil =>
      intro b s level p nd h
      exact Or.inl ⟨nd, h, rfl, rfl, rfl⟩
  | cons part rest ih =>
      intro b s level p nd h
      cases p with
      | nil =>
          rw [show findPath [] (insertParts b s (part :: rest) level) = none from rfl] at h
          exact absurd h (by simp)
      | cons k prest =>
        rw [insertParts_cons] at h
        by_cases hkp : k = part
        · subst hkp
          cases hpl : assocFind k level with
          | some nd1 =>
              simp only [hpl] at h
              have hfind : assocFind k
                  (assocMapAt k (fun nd => nd.setChildren (insertParts b s rest nd.children))
                    level)
                  = some (nd1.setChildren (insertParts b s rest nd1.children)) := by
                rw [assocFind_mapAt_self, hpl]; rfl
              cases prest with
              | nil =>
                  rw [findPath_single_some k _ _ hfind] at h
                  have hnd : nd1.setChildren (insertParts b s rest nd1.children) = nd := by
                    injection h
                  refine Or.inl ⟨nd1, findPath_single_some k level nd1 hpl, ?_, ?_, ?_⟩
                  · rw [← hnd, setChildren_name]
                  · rw [← hnd, setChildren_type]
                  · rw [← hnd, setChildren_size]
              | cons q qrest =>
                  rw [findPath_cons2 k q qrest _ _ hfind, setChildren_children] at h
                  rcases ih b s nd1.children (q :: qrest) nd h with
                    ⟨nd0, hfp, hn, ht, hs⟩ | hmid | ⟨hpr, ht, hs⟩
                  · exact Or.inl ⟨nd0,
                      by rw [findPath_cons2 k q qrest level nd1 hpl]; exact hfp, hn, ht, hs⟩
                  · exact Or.inr (Or.inl hmid)
                  · exact Or.inr (Or.inr ⟨by rw [hpr], ht, hs⟩)
          | none =>
            simp only [hpl] at h
            set newnode := NodeDict.mk k
                (if (if rest.isEmpty then b else true) then "directory" else "file")
                (if rest.isEmpty then s else 0) ([] : List (String × NodeDict)) with hnew
            have hfl : assocFind k (level ++ [(k, newnode)]) = some newnode := by
              rw [assocFind_append_none k level [(k, newnode)] hpl]
              simp [assocFind]
            have hfind : assocFind k
                (assocMapAt k (fun nd => nd.setChildren (insertParts b s rest nd.children))
                  (level ++ [(k, newnode)]))
                = some (newnode.setChildren (insertParts b s rest newnode.children)) := by
              rw [assocFind_mapAt_self, hfl]; rfl
            cases prest with
            | nil =>
                rw [findPath_single_some k _ _ hfind] at h
                have hnd : newnode.setChildren (insertParts b s rest newnode.children) = nd := by
                  injection h
                cases rest with
                | nil =>
                    refine Or.inr (Or.inr ⟨rfl, ?_, ?_⟩)
                    · rw [← hnd, setChildren_type, hnew]
                      rfl
                    · rw [← hnd, setChildren_size, hnew]
                      rfl
                | cons r rrest =>
                    refine Or.inr (Or.inl ⟨?_, ?_⟩)
                    · rw [← hnd, setChildren_type, hnew]
                      rfl
                    · rw [← hnd, setChildren_size, hnew]
                      rfl
            | cons q qrest =>
                rw [findPath_cons2 k q qrest _ _ hfind, setChildren_children] at h
                have hch : newnode.children = [] := by rw [hnew]; rfl
                rw [hch] at h
                rcases ih b s [] (q :: qrest) nd h with
                  ⟨nd0, hfp, _, _, _⟩ | hmid | ⟨hpr, ht, hs⟩
                · rw [findPath_nil] at hfp
                  exact absurd hfp (by simp)
                · exact Or.inr (Or.inl hmid)
                · exact Or.inr (Or.inr ⟨by rw [hpr], ht, hs⟩)
        · have hmap : ∀ g : List (String × NodeDict),
              findPath (k :: prest)
                (assocMapAt part
                  (fun nd => nd.setChildren (insertParts b s rest nd.children)) g) =
              findPath (k :: prest) g :=
            fun g => findPath_mapAt_ne part k prest _ g (fun hq => hkp hq.symm)
          cases hpl : assocFind part level with
          | some w =>
              simp only [hpl] at h
              rw [hmap level] at h
              exact Or.inl ⟨nd, h, rfl, rfl, rfl⟩
          | none =>
              simp only [hpl] at h
              rw [hmap _] at h
              cases hkl : assocFind k level with
              | some nd1 =>
                  have hka : assocFind k (level ++ [(part, NodeDict.mk part
                      (if (if rest.isEmpty then b else true) then "directory" else "file")
                      (if rest.isEmpty then s else 0) [])]) = some nd1 :=
                    assocFind_append_some k level _ nd1 hkl
                  cases prest with
                  | nil =>
                      rw [findPath_single_some k _ nd1 hka] at h
                      exact Or.inl ⟨nd, by rw [findPath_single_some k level nd1 hkl]
                                           exact h, rfl, rfl, rfl⟩
                  | cons q qrest =>
                      rw [findPath_cons2 k q qrest _ nd1 hka] at h
                      exact Or.inl ⟨nd, by rw [findPath_cons2 k q qrest level nd1 hkl]
                                           exact h, rfl, rfl, rfl⟩
              | none =>
                  have hka : assocFind k (level ++ [(part, NodeDict.mk part
                      (if (if rest.isEmpty then b else true) then "directory" else "file")
                      (if rest.isEmpty then s else 0) [])]) = none := by
                    rw [assocFind_append_none k level _ hkl]
                    have hpk : part ≠ k := fun hq => hkp hq.symm
                    simp [assocFind, hpk]
                  rw [findPath_cons_none k prest _ hka] at h
                  exact absurd h (by simp)

/-- A member whose computed segments are empty, root-resolving, or deeper
than max_depth leaves the tree unchanged. -/
theorem processMember_skip (d : Nat) (tree : List (String × NodeDict)) (m : TarMember)
    (h : (pathParts m.name = [] ∨ pathParts m.name = [""]) ∨ (pathParts m.name).length > d) :
    processMember d tree m = tree := by
  unfold processMember
  rcases h with h1 | h2
  · rw [if_pos h1]
  · by_cases h1 : pathParts m.name = [] ∨ pathParts m.name = [""]
    · rw [if_pos h1]
    · rw [if_neg h1, if_pos h2]

/-- A member that is not skipped is folded into the tree by insertParts. -/
theorem processMember_insert (d : Nat) (tree : List (String × NodeDict)) (m : TarMember)
    (h1 : ¬(pathParts m.name = [] ∨ pathParts m.name = [""]))
    (h2 : ¬(pathParts m.name).length > d) :
    processMember d tree m = insertParts m.isdir m.size (pathParts m.name) tree := by
  unfold processMember
  rw [if_neg h1, if_neg h2]

/-- Attribute preservation over the whole member loop: once a node exists
at a path with a given name, type and size, later members never change
them. -/
theorem foldl_processMember_preserve (d : Nat) :
    ∀ (ms : List TarMember) (tree : List (String × NodeDict)) (p : List String)
      (nd : NodeDict),
      findPath p tree = some nd →
      ∃ nd2, findPath p (List.foldl (processMember d) tree ms) = some nd2 ∧
        nd2.name = nd.name ∧ nd2.type = nd.type ∧ nd2.size = nd.size := by
  intro ms
  induction ms with
  | nil =>
      intro tree p nd h
      exact ⟨nd, h, rfl, rfl, rfl⟩
  | cons m ms ih =>
      intro tree p nd h
      have hstep : ∃ nd1, findPath p (processMember d tree m) = some nd1 ∧
          nd1.name = nd.name ∧ nd1.type = nd.type ∧ nd1.size = nd.size := by
        by_cases h1 : pathParts m.name = [] ∨ pathParts m.name = [""]
        · rw [processMember_skip d tree m (Or.inl h1)]
          exact ⟨nd, h, rfl, rfl, rfl⟩
        · by_cases h2 : (pathParts m.name).length > d
          · rw [processMember_skip d tree m (Or.inr h2)]
            exact ⟨nd, h, rfl, rfl, rfl⟩
          · rw [processMember_insert d tree m h1 h2]
            exact findPath_insertParts_preserve _ _ _ _ _ _ h
      obtain ⟨nd1, hh1, hn1, ht1, hs1⟩ := hstep
      obtain ⟨nd2, hh2, hn2, ht2, hs2⟩ := ih (processMember d tree m) p nd1 hh1
      exact ⟨nd2, by simpa using hh2, hn2.trans hn1, ht2.trans ht1, hs2.trans hs1⟩

/-- Origin of any node of the built tree: every node was created either
as a non-terminal segment (type directory, size 0) or as the terminal
segment of some member of the sequence, carrying that member's type and
size, and its attributes never changed afterwards. -/
theorem foldl_processMember_origin (d : Nat) :
    ∀ (ms : List TarMember) (tree : List (String × NodeDict)) (p : List String)
      (nd : NodeDict),
      findPath p (List.foldl (processMember d) tree ms) = some nd →
      (∃ nd0, findPath p tree = some nd0 ∧
        nd.name = nd0.name ∧ nd.type = nd0.type ∧ nd.size = nd0.size)
      ∨ (nd.type = "directory" ∧ nd.size = 0)
      ∨ (∃ m ∈ ms, pathParts m.name = p ∧
          nd.type = (if m.isdir then "directory" else "file") ∧ nd.size = m.size) := by
  intro ms
  induction ms with
  | nil =>
      intro tree p nd h
      exact Or.inl ⟨nd, by simpa using h, rfl, rfl, rfl⟩
  | cons m ms ih =>
      intro tree p nd h
      rw [List.foldl_cons] at h
      rcases ih (processMember d tree m) p nd h with
        ⟨nd0, hfp, hn, ht, hs⟩ | hmid | ⟨m2, hm2, hp2, ht2, hs2⟩
      · by_cases h1 : pathParts m.name = [] ∨ pathParts m.name = [""]
        · rw [processMember_skip d tree m (Or.inl h1)] at hfp
          exact Or.inl ⟨nd0, hfp, hn, ht, hs⟩
        · by_cases h2 : (pathParts m.name).length > d
          · rw [processMember_skip d tree m (Or.inr h2)] at hfp
            exact Or.inl ⟨nd0, hfp, hn, ht, hs⟩
          · rw [processMember_insert d tree m h1 h2] at hfp
            rcases findPath_insertParts_origin (pathParts m.name) m.isdir m.size tree p nd0
                hfp with ⟨nd3, hfp3, hn3, ht3, hs3⟩ | ⟨htd, hsd⟩ | ⟨hpp, htp, hsp⟩
            · exact Or.inl ⟨nd3, hfp3, hn.trans hn3, ht.trans ht3, hs.trans hs3⟩
            · exact Or.inr (Or.inl ⟨ht.trans htd, hs.trans hsd⟩)
            · exact Or.inr (Or.inr ⟨m, List.mem_cons_self m ms, hpp.symm,
                ht.trans htp, hs.trans hsp⟩)
      · exact Or.inr (Or.inl hmid)
      · exact Or.inr (Or.inr ⟨m2, List.mem_cons_of_mem m hm2, hp2, ht2, hs2⟩)

theorem charListLt_asymm :
    ∀ a b : List Char, charListLt a b = true → charListLt b a = false := by
  intro a
  induction a with
  | nil =>
      intro b h
      cases b with
      | nil => simp [charListLt] at h
      | cons y ys => rfl
  | cons x xs ih =>
      intro b h
      cases b with
      | nil => simp [charListLt] at h
      | cons y ys =>
          unfold charListLt at h ⊢
          by_cases hxy : x < y
          · have hyx : ¬y < x := lt_asymm hxy
            rw [if_neg hyx, if_pos hxy]
          · by_cases hyx : y < x
            · rw [if_neg hxy, if_pos hyx] at h
              exact absurd h (by simp)
            · rw [if_neg hxy, if_neg hyx] at h
              rw [if_neg hyx, if_neg hxy]
              exact ih ys h

theorem charListLt_trans :
    ∀ a b c : List Char, charListLt a b = true → charListLt b c = true →
      charListLt a c = true := by
  intro a
  induction a with
  | nil =>
      intro b c h1 h2
      cases b with
      | nil => simp [charListLt] at h1
      | cons y ys =>
          cases c with
          | nil => simp [charListLt] at h2
          | cons z zs => rfl
  | cons x xs ih =>
      intro b c h1 h2
      cases b with
      | nil => simp [charListLt] at h1
      | cons y ys =>
          cases c with
          | nil => simp [charListLt] at h2
          | cons z zs =>
              unfold charListLt at h1 h2 ⊢
              by_cases hxy : x < y
              · by_cases hyz : y < z
                · rw [if_pos (lt_trans hxy hyz)]
                · by_cases hzy : z < y
                  · rw [if_neg hyz, if_pos hzy] at h2
                    exact absurd h2 (by simp)
                  · have hyzeq : y = z := le_antisymm (not_lt.mp hzy) (not_lt.mp hyz)
                    rw [if_pos (hyzeq ▸ hxy)]
              · by_cases hyx : y < x
                · rw [if_neg hxy, if_pos hyx] at h1
                  exact absurd h1 (by simp)
                · have hxyeq : x = y := le_antisymm (not_lt.mp hyx) (not_lt.mp hxy)
                  rw [if_neg hxy, if_neg hyx] at h1
                  by_cases hyz : y < z
                  · rw [if_pos (hxyeq ▸ hyz)]
                  · by_cases hzy : z < y
                    · rw [if_neg hyz, if_pos hzy] at h2
                      exact absurd h2 (by simp)
                    · rw [if_neg hyz, if_neg hzy] at h2
                      have hxz : ¬x < z := hxyeq ▸ hyz
                      have hzx : ¬z < x := hxyeq ▸ hzy
                      rw [if_neg hxz, if_neg hzx]
                      exact ih ys zs h1 h2

theorem nodeLt_asymm (x y : FileNode) (h : nodeLt x y = true) : nodeLt y x = false := by
  unfold nodeLt strLt at h ⊢
  cases hga : (x.type != "directory") <;> cases hgb : (y.type != "directory") <;>
      simp_all
  · exact charListLt_asymm _ _ h
  · exact charListLt_asymm _ _ h

theorem nodeLt_trans (x y z : FileNode) (h1 : nodeLt x y = true)
    (h2 : nodeLt y z = true) : nodeLt x z = true := by
  unfold nodeLt strLt at h1 h2 ⊢
  cases hga : (x.type != "directory") <;> cases hgb : (y.type != "directory") <;>
      cases hgc : (z.type != "directory") <;> simp_all
  · exact charListLt_trans _ _ _ h1 h2
  · exact charListLt_trans _ _ _ h1 h2

theorem mem_insertSorted (x w : FileNode) :
    ∀ l : List FileNode, w ∈ insertSorted x l ↔ w = x ∨ w ∈ l := by
  intro l
  induction l with
  | nil => simp [insertSorted]
  | cons y ys ih =>
      unfold insertSorted
      by_cases hxy : nodeLt x y = true
      · rw [if_pos hxy]
        simp [List.mem_cons]
      · rw [if_neg hxy]
        simp [List.mem_cons, ih]
        tauto

theorem pairwise_insertSorted (x : FileNode) :
    ∀ l : List FileNode, l.Pairwise (fun a b => nodeLt b a = false) →
      (insertSorted x l).Pairwise (fun a b => nodeLt b a = false) := by
  intro l
  induction l with
  | nil =>
      intro _
      simp [insertSorted]
  | cons y ys ih =>
      intro h
      rw [List.pairwise_cons] at h
      obtain ⟨hy, hys⟩ := h
      unfold insertSorted
      by_cases hxy : nodeLt x y = true
      · rw [if_pos hxy]
        refine List.Pairwise.cons ?_ (List.Pairwise.cons hy hys)
        intro z hz
        rcases List.mem_cons.mp hz with rfl | hz2
        · exact nodeLt_asymm x z hxy
        · cases hzx : nodeLt z x
          · rfl
          · exact absurd (nodeLt_trans z x y hzx hxy) (by simp [hy z hz2])
      · rw [if_neg hxy]
        refine List.Pairwise.cons ?_ (ih hys)
        intro z hz
        rcases (mem_insertSorted x z ys).mp hz with rfl | hz2
        · simpa using hxy
        · exact hy z hz2

theorem foldl_insertSorted_pairwise :
    ∀ (l acc : List FileNode), acc.Pairwise (fun a b => nodeLt b a = false) →
      (List.foldl (fun a x => insertSorted x a) acc l).Pairwise
        (fun a b => nodeLt b a = false) := by
  intro l
  induction l with
  | nil =>
      intro acc h
      simpa using h
  | cons x xs ih =>
      intro acc h
      rw [List.foldl_cons]
      exact ih _ (pairwise_insertSorted x acc h)

/-- The embedded Python sorted call produces a level with no key
inversions. -/
theorem sortNodes_pairwise (l : List FileNode) :
    (sortNodes l).Pairwise (fun a b => nodeLt b a = false) :=
  foldl_insertSorted_pairwise l [] List.Pairwise.nil

theorem insertSorted_perm (x : FileNode) :
    ∀ l : List FileNode, (insertSorted x l).Perm (x :: l) := by
  intro l
  induction l with
  | nil => exact List.Perm.refl _
  | cons y ys ih =>
      unfold insertSorted
      by_cases hxy : nodeLt x y = true
      · rw [if_pos hxy]
      · rw [if_neg hxy]
        exact List.Perm.trans (List.Perm.cons y ih) (List.Perm.swap x y ys)

theorem foldl_insertSorted_perm :
    ∀ (l acc : List FileNode),
      (List.foldl (fun a x => insertSorted x a) acc l).Perm (l ++ acc) := by
  intro l
  induction l with
  | nil =>
      intro acc
      simp
  | cons x xs ih =>
      intro acc
      rw [List.foldl_cons, List.cons_append]
      exact List.Perm.trans (ih _)
        (List.Perm.trans (List.Perm.append_left xs (insertSorted_perm x acc))
          List.perm_middle)

/-- The embedded sort is a permutation of its input, as Python sorted is. -/
theorem sortNodes_perm (l : List FileNode) : (sortNodes l).Perm l := by
  have h := foldl_insertSorted_perm l []
  simpa [sortNodes] using h

theorem length_sortNodes (l : List FileNode) : (sortNodes l).length = l.length :=
  (sortNodes_perm l).length_eq

theorem nodeToFile_mk (n t : String) (sz : Nat) (c : List (String × NodeDict)) :
    nodeToFile (NodeDict.mk n t sz c) =
      FileNode.mk n t sz
        (if c.isEmpty then none else some (sortNodes (dictToNodesCore c))) := by
  rfl

theorem dictToNodesCore_nil : dictToNodesCore [] = [] := rfl

theorem dictToNodesCore_cons (k : String) (v : NodeDict) (tl : List (String × NodeDict)) :
    dictToNodesCore ((k, v) :: tl) = nodeToFile v :: dictToNodesCore tl := rfl

theorem nodeToFile_name (v : NodeDict) : (nodeToFile v).name = v.name := by
  cases v
  rw [nodeToFile_mk]
  rfl

theorem mem_dictToNodesCore (x : FileNode) :
    ∀ d : List (String × NodeDict),
      x ∈ dictToNodesCore d ↔ ∃ k v, (k, v) ∈ d ∧ x = nodeToFile v := by
  intro d
  induction d with
  | nil => simp [dictToNodesCore_nil]
  | cons hd tl ih =>
      obtain ⟨k2, v2⟩ := hd
      rw [dictToNodesCore_cons]
      simp only [List.mem_cons, ih, Prod.mk.injEq]
      constructor
      · rintro (rfl | ⟨k, v, hkv, rfl⟩)
        · exact ⟨k2, v2, Or.inl ⟨rfl, rfl⟩, rfl⟩
        · exact ⟨k, v, Or.inr hkv, rfl⟩
      · rintro ⟨k, v, ⟨rfl, rfl⟩ | hkv, rfl⟩
        · exact Or.inl rfl
        · exact Or.inr ⟨k, v, hkv, rfl⟩

theorem length_dictToNodesCore :
    ∀ d : List (String × NodeDict), (dictToNodesCore d).length = d.length := by
  intro d
  induction d with
  | nil => rfl
  | cons hd tl ih =>
      obtain ⟨k2, v2⟩ := hd
      rw [dictToNodesCore_cons]
      simp [ih]

theorem sizeOf_children_lt :
    ∀ (d : List (String × NodeDict)) (k : String) (v : NodeDict),
      (k, v) ∈ d → sizeOf v.children < sizeOf d := by
  intro d
  induction d with
  | nil =>
      intro k v h
      simp at h
  | cons hd tl ih =>
      intro k v h
      rcases List.mem_cons.mp h with heq | hmem
      · obtain ⟨k2, v2⟩ := hd
        obtain ⟨rfl, rfl⟩ := Prod.mk.injEq .. ▸ heq
        cases v with
        | mk n t sz c =>
            show sizeOf c < sizeOf ((k, NodeDict.mk n t sz c) :: tl)
            simp
            omega
      · have h1 := ih k v hmem
        have h2 : sizeOf tl < sizeOf (hd :: tl) := by
          simp
        omega

theorem nodeLevelsOk_none (p : List FileNode → Bool) (n t : String) (sz : Nat) :
    nodeLevelsOk p (FileNode.mk n t sz none) = true := rfl

theorem nodeLevelsOk_some (p : List FileNode → Bool) (n t : String) (sz : Nat)
    (l : List FileNode) :
    nodeLevelsOk p (FileNode.mk n t sz (some l)) = (p l && listLevelsOk p l) := rfl

theorem listLevelsOk_iff (p : List FileNode → Bool) :
    ∀ l : List FileNode, listLevelsOk p l = true ↔ ∀ x ∈ l, nodeLevelsOk p x = true := by
  intro l
  induction l with
  | nil => simp [listLevelsOk]
  | cons x xs ih =>
      rw [show listLevelsOk p (x :: xs) = (nodeLevelsOk p x && listLevelsOk p xs) from rfl]
      simp [ih]

/-- Generic induction over the serialized tree: if a level predicate holds
of the serialization of every dict satisfying an invariant preserved by
taking children, it holds at every level of the serialized output. -/
theorem dict_to_nodes_levelsOk (p : List FileNode → Bool)
    (P : List (String × NodeDict) → Prop)
    (hchild : ∀ d k v, P d → (k, v) ∈ d → P v.children)
    (hp : ∀ d, P d → p (dict_to_nodes d) = true) :
    ∀ d, P d → treeLevelsOk p (dict_to_nodes d) = true := by
  have main : ∀ n d, sizeOf d ≤ n → P d → treeLevelsOk p (dict_to_nodes d) = true := by
    intro n
    induction n with
    | zero =>
        intro d hsz
        have hpos : 0 < sizeOf d := by
          cases d <;> simp_arith
        omega
    | succ n ihn =>
        intro d hsz hP
        unfold treeLevelsOk
        rw [Bool.and_eq_true]
        refine ⟨hp d hP, ?_⟩
        rw [listLevelsOk_iff]
        intro x hx
        have hx2 : x ∈ dictToNodesCore d :=
          ((sortNodes_perm (dictToNodesCore d)).mem_iff).mp hx
        obtain ⟨k, v, hkv, rfl⟩ := (mem_dictToNodesCore x d).mp hx2
        have hsm : sizeOf v.children ≤ n := by
          have := sizeOf_children_lt d k v hkv
          omega
        have hPc : P v.children := hchild d k v hP hkv
        cases v with
        | mk vn vt vs vc =>
            rw [nodeToFile_mk]
            by_cases hc : vc.isEmpty
            · rw [if_pos hc]
              exact nodeLevelsOk_none p vn vt vs
            · rw [if_neg hc, nodeLevelsOk_some]
              have := ihn vc hsm hPc
              unfold treeLevelsOk at this
              exact this
  intro d hP
  exact main (sizeOf d) d (le_refl _) hP

theorem levelSortedOk_iff :
    ∀ l : List FileNode,
      levelSortedOk l = true ↔ l.Pairwise (fun a b => nodeLt b a = false) := by
  intro l
  induction l with
  | nil => simp [levelSortedOk]
  | cons x xs ih =>
      rw [show levelSortedOk (x :: xs) =
        (xs.all (fun y => !(nodeLt y x)) && levelSortedOk xs) from rfl]
      simp [List.pairwise_cons, ih, List.all_eq_true]

theorem sortNodes_levelSortedOk (l : List FileNode) :
    levelSortedOk (sortNodes l) = true :=
  (levelSortedOk_iff (sortNodes l)).mpr (sortNodes_pairwise l)

theorem levelNamesOk_iff :
    ∀ l : List FileNode, levelNamesOk l = true ↔ (l.map FileNode.name).Nodup := by
  intro l
  induction l with
  | nil => simp [levelNamesOk]
  | cons x xs ih =>
      rw [show levelNamesOk (x :: xs) =
        (!((xs.map FileNode.name).contains x.name) && levelNamesOk xs) from rfl]
      simp [List.nodup_cons, ih]

theorem levelWF_cons_eq (k : String) (v : NodeDict) (tl : List (String × NodeDict)) :
    levelWF ((k, v) :: tl) =
      ((v.name == k) && !((tl.map Prod.fst).contains k) && ndWF v && levelWF tl) := rfl

theorem ndWF_children (v : NodeDict) : ndWF v = levelWF v.children := by
  cases v
  rfl

theorem levelWF_children_of_mem :
    ∀ (d : List (String × NodeDict)) (k : String) (v : NodeDict),
      levelWF d = true → (k, v) ∈ d → levelWF v.children = true := by
  intro d
  induction d with
  | nil =>
      intro k v _ h
      simp at h
  | cons hd tl ih =>
      intro k v h hmem
      obtain ⟨k2, v2⟩ := hd
      rw [levelWF_cons_eq] at h
      simp only [Bool.and_eq_true] at h
      obtain ⟨⟨⟨_, _⟩, hwf⟩, htl⟩ := h
      rcases List.mem_cons.mp hmem with heq | hmem2
      · obtain ⟨rfl, rfl⟩ := Prod.mk.injEq .. ▸ heq
        rw [← ndWF_children]
        exact hwf
      · exact ih k v htl hmem2

theorem levelWF_keys_nodup :
    ∀ d : List (String × NodeDict), levelWF d = true → (d.map Prod.fst).Nodup := by
  intro d
  induction d with
  | nil =>
      intro _
      simp
  | cons hd tl ih =>
      intro h
      obtain ⟨k2, v2⟩ := hd
      rw [levelWF_cons_eq] at h
      simp only [Bool.and_eq_true] at h
      obtain ⟨⟨⟨_, hnc⟩, _⟩, htl⟩ := h
      simp only [List.map_cons, List.nodup_cons]
      refine ⟨?_, ih htl⟩
      intro hmem
      rw [Bool.not_eq_true', ← Bool.not_eq_true] at hnc
      exact hnc (List.elem_iff.mpr hmem)

theorem levelWF_names :
    ∀ d : List (String × NodeDict), levelWF d = true →
      (dictToNodesCore d).map FileNode.name = d.map Prod.fst := by
  intro d
  induction d with
  | nil =>
      intro _
      rfl
  | cons hd tl ih =>
      intro h
      obtain ⟨k2, v2⟩ := hd
      rw [levelWF_cons_eq] at h
      simp only [Bool.and_eq_true] at h
      obtain ⟨⟨⟨hname, _⟩, _⟩, htl⟩ := h
      rw [dictToNodesCore_cons]
      simp only [List.map_cons]
      rw [nodeToFile_name, ih htl]
      congr 1
      exact eq_of_beq hname

theorem ndWF_of_assocFind :
    ∀ (level : List (String × NodeDict)) (k : String) (v : NodeDict),
      levelWF level = true → assocFind k level = some v → ndWF v = true := by
  intro level
  induction level with
  | nil =>
      intro k v _ h
      simp [assocFind] at h
  | cons hd tl ih =>
      intro k v h hf
      obtain ⟨k2, v2⟩ := hd
      rw [levelWF_cons_eq] at h
      simp only [Bool.and_eq_true] at h
      obtain ⟨⟨⟨_, _⟩, hwf⟩, htl⟩ := h
      by_cases hk : k2 = k
      · rw [show assocFind k ((k2, v2) :: tl) = if k2 = k then some v2 else assocFind k tl
            from rfl, if_pos hk] at hf
        injection hf with hf2
        rw [← hf2]
        exact hwf
      · rw [show assocFind k ((k2, v2) :: tl) = if k2 = k then some v2 else assocFind k tl
            from rfl, if_neg hk] at hf
        exact ih k v htl hf

theorem levelWF_append_new (part t2 : String) (sz : Nat) :
    ∀ level : List (String × NodeDict), levelWF level = true →
      assocFind part level = none →
      levelWF (level ++ [(part, NodeDict.mk part t2 sz [])]) = true := by
  intro level
  induction level with
  | nil =>
      intro _ _
      rw [List.nil_append, levelWF_cons_eq]
      simp [ndWF_children, NodeDict.name, NodeDict.children, levelWF]
  | cons hd tl ih =>
      intro h hf
      obtain ⟨k2, v2⟩ := hd
      rw [levelWF_cons_eq] at h
      simp only [Bool.and_eq_true] at h
      obtain ⟨⟨⟨hname, hnc⟩, hwf⟩, htl⟩ := h
      rw [show assocFind part ((k2, v2) :: tl) =
        if k2 = part then some v2 else assocFind part tl from rfl] at hf
      by_cases hk : k2 = part
      · rw [if_pos hk] at hf
        exact absurd hf (by simp)
      · rw [if_neg hk] at hf
        rw [List.cons_append, levelWF_cons_eq]
        simp only [Bool.and_eq_true]
        refine ⟨⟨⟨hname, ?_⟩, hwf⟩, ih htl hf⟩
        simp only [List.map_append, List.map_cons, List.map_nil]
        rw [Bool.not_eq_true', ← Bool.not_eq_true]
        rw [Bool.not_eq_true', ← Bool.not_eq_true] at hnc
        intro hcon
        rcases List.mem_append.mp (List.elem_iff.mp hcon) with hin | hin
        · exact hnc (List.elem_iff.mpr hin)
        · rcases List.mem_singleton.mp hin with rfl
          exact hk rfl

theorem assocMapAt_keys (part : String) (f : NodeDict → NodeDict) :
    ∀ l : List (String × NodeDict),
      (assocMapAt part f l).map Prod.fst = l.map Prod.fst := by
  intro l
  induction l with
  | nil => rfl
  | cons hd tl ih =>
      obtain ⟨k3, v3⟩ := hd
      rw [show assocMapAt part f ((k3, v3) :: tl) =
        if k3 = part then (k3, f v3) :: tl else (k3, v3) :: assocMapAt part f tl from rfl]
      by_cases hk3 : k3 = part
      · rw [if_pos hk3]
        simp
      · rw [if_neg hk3]
        simp only [List.map_cons]
        rw [ih]

theorem levelWF_mapAt (part : String) (f : NodeDict → NodeDict)
    (hfn : ∀ v, (f v).name = v.name) :
    ∀ level : List (String × NodeDict), levelWF level = true →
      (∀ v, assocFind part level = some v → ndWF (f v) = true) →
      levelWF (assocMapAt part f level) = true := by
  intro level
  induction level with
  | nil =>
      intro h _
      exact h
  | cons hd tl ih =>
      intro h hv
      obtain ⟨k2, v2⟩ := hd
      rw [levelWF_cons_eq] at h
      simp only [Bool.and_eq_true] at h
      obtain ⟨⟨⟨hname, hnc⟩, hwf⟩, htl⟩ := h
      rw [show assocMapAt part f ((k2, v2) :: tl) =
        if k2 = part then (k2, f v2) :: tl else (k2, v2) :: assocMapAt part f tl from rfl]
      by_cases hk : k2 = part
      · rw [if_pos hk, levelWF_cons_eq]
        simp only [Bool.and_eq_true]
        have hfv : ndWF (f v2) = true := by
          apply hv
          rw [show assocFind part ((k2, v2) :: tl) =
            if k2 = part then some v2 else assocFind part tl from rfl, if_pos hk]
        refine ⟨⟨⟨?_, hnc⟩, hfv⟩, htl⟩
        rw [hfn v2]
        exact hname
      · rw [if_neg hk, levelWF_cons_eq]
        simp only [Bool.and_eq_true]
        refine ⟨⟨⟨hname, ?_⟩, hwf⟩, ?_⟩
        · rw [assocMapAt_keys]
          exact hnc
        · apply ih htl
          intro v hv2
          apply hv
          rw [show assocFind part ((k2, v2) :: tl) =
            if k2 = part then some v2 else assocFind part tl from rfl, if_neg hk]
          exact hv2

/-- The dict invariant (names match keys, keys distinct per level) is
preserved by inserting one entry path. -/
theorem levelWF_insertParts :
    ∀ (parts : List String) (b : Bool) (sz : Nat) (level : List (String × NodeDict)),
      levelWF level = true → levelWF (insertParts b sz parts level) = true := by
  intro parts
  induction parts with
  | nil =>
      intro b sz level h
      exact h
  | cons part rest ih =>
      intro b sz level h
      rw [insertParts_cons]
      have hfn : ∀ v : NodeDict,
          (v.setChildren (insertParts b sz rest v.children)).name = v.name :=
        fun v => setChildren_name v _
      cases hpl : assocFind part level with
      | some w =>
          simp only [hpl]
          apply levelWF_mapAt part _ hfn level h
          intro v hv
          rw [ndWF_children, setChildren_children]
          have hvc : levelWF v.children = true := by
            have h2 := ndWF_of_assocFind level part v h hv
            rwa [ndWF_children] at h2
          exact ih b sz v.children hvc
      | none =>
          simp only [hpl]
          have hgrown := levelWF_append_new part
            (if (if rest.isEmpty then b else true) then "directory" else "file")
            (if rest.isEmpty then sz else 0) level h hpl
          apply levelWF_mapAt part _ hfn _ hgrown
          intro v hv
          rw [ndWF_children, setChildren_children]
          have hvc : levelWF v.children = true := by
            have h2 := ndWF_of_assocFind _ part v hgrown hv
            rwa [ndWF_children] at h2
          exact ih b sz v.children hvc

theorem levelWF_processMember (d : Nat) (tree : List (String × NodeDict)) (m : TarMember)
    (h : levelWF tree = true) : levelWF (processMember d tree m) = true := by
  by_cases h1 : pathParts m.name = [] ∨ pathParts m.name = [""]
  · rw [processMember_skip d tree m (Or.inl h1)]
    exact h
  · by_cases h2 : (pathParts m.name).length > d
    · rw [processMember_skip d tree m (Or.inr h2)]
      exact h
    · rw [processMember_insert d tree m h1 h2]
      exact levelWF_insertParts _ _ _ _ h

/-- The built tree always satisfies the dict invariant. -/
theorem levelWF_buildTree (d : Nat) (ms : List TarMember) :
    levelWF (buildTree d ms) = true := by
  have aux : ∀ (l : List TarMember) (tree : List (String × NodeDict)),
      levelWF tree = true → levelWF (List.foldl (processMember d) tree l) = true := by
    intro l
    induction l with
    | nil =>
        intro tree h
        simpa using h
    | cons m l2 ih =>
        intro tree h
        rw [List.foldl_cons]
        exact ih _ (levelWF_processMember d tree m h)
  exact aux ms [] rfl

/-- Serialization never produces a present-but-empty children list. -/
theorem noEmptyOk_dict_to_nodes (d : List (String × NodeDict)) :
    noEmptyOk (dict_to_nodes d) = true := by
  unfold noEmptyOk
  rw [List.all_eq_true]
  intro x hx
  have hx2 : x ∈ dictToNodesCore d := ((sortNodes_perm _).mem_iff).mp hx
  obtain ⟨k, v, hkv, rfl⟩ := (mem_dictToNodesCore x d).mp hx2
  cases v with
  | mk vn vt vs vc =>
      rw [nodeToFile_mk]
      by_cases hc : vc.isEmpty
      · rw [if_pos hc]
        rfl
      · rw [if_neg hc]
        show (!(sortNodes (dictToNodesCore vc)).isEmpty) = true
        have hl : (sortNodes (dictToNodesCore vc)).length = vc.length := by
          rw [length_sortNodes, length_dictToNodesCore]
        cases hsn : sortNodes (dictToNodesCore vc) with
        | nil =>
            rw [hsn] at hl
            have : vc = [] := List.length_eq_zero.mp hl.symm
            rw [this] at hc
            exact absurd rfl hc
        | cons a as => rfl

/-- On a well-formed dict level, serialization yields pairwise distinct
sibling names (the names are a permutation of the dict keys). -/
theorem levelNamesOk_dict_to_nodes (d : List (String × NodeDict))
    (h : levelWF d = true) : levelNamesOk (dict_to_nodes d) = true := by
  rw [levelNamesOk_iff]
  have hperm : ((sortNodes (dictToNodesCore d)).map FileNode.name).Perm
      ((dictToNodesCore d).map FileNode.name) := (sortNodes_perm _).map _
  rw [show dict_to_nodes d = sortNodes (dictToNodesCore d) from rfl]
  refine hperm.nodup_iff.mpr ?_
  rw [levelWF_names d h]
  exact levelWF_keys_nodup d h

/-- C1 counterexample: the claim says duplicate entries are last-write-wins,
but two entries for path x with sizes 1 then 2 yield a node of size 1 (the
first entry's size), not 2. -/
theorem C1_counterexample :
    get_image_files 5 [⟨"x", false, 1⟩, ⟨"x", false, 2⟩] =
      [⟨"x", "file", 1, none⟩] ∧ (1 : Nat) ≠ 2 :=
  ⟨rfl, by decide⟩

/-- C1 (amended): duplicate archive entries are first-write-wins — once a
node exists at a path, its name, kind and size are never overwritten by
later entries; in particular two entries for the same path with different
sizes yield a node whose size equals the first entry's size. -/
theorem C1_first_write_wins :
    (∀ (d : Nat) (ms ms2 : List TarMember) (p : List String) (nd : NodeDict),
      findPath p (buildTree d ms) = some nd →
      ∃ nd2, findPath p (buildTree d (ms ++ ms2)) = some nd2 ∧
        nd2.name = nd.name ∧ nd2.type = nd.type ∧ nd2.size = nd.size) ∧
    findPath ["x"] (buildTree 5 [⟨"x", false, 1⟩, ⟨"x", false, 2⟩]) =
      some ⟨"x", "file", 1, []⟩ := by
  constructor
  · intro d ms ms2 p nd h
    unfold buildTree at h ⊢
    rw [List.foldl_append]
    exact foldl_processMember_preserve d ms2 _ p nd h
  · rfl

/-- C1 witness: the general part applied to the concrete duplicate pair. -/
theorem C1_first_write_wins_witness :
    ∃ nd2, findPath ["x"] (buildTree 5 ([⟨"x", false, 1⟩] ++ [⟨"x", false, 2⟩])) =
      some nd2 ∧ nd2.name = "x" ∧ nd2.type = "file" ∧ nd2.size = 1 := by
  have h := C1_first_write_wins.1 5 [⟨"x", false, 1⟩] [⟨"x", false, 2⟩] ["x"]
    ⟨"x", "file", 1, []⟩ rfl
  simpa [NodeDict.name, NodeDict.type, NodeDict.size] using h

/-- C2 counterexample: the claim says a node used as a non-terminal segment
is reclassified to directory; but entry (x, file) followed by (x/y, file)
leaves x with kind file while containing y. -/
theorem C2_counterexample :
    get_image_files 5 [⟨"x", false, 5⟩, ⟨"x/y", false, 3⟩] =
      [⟨"x", "file", 5, some [⟨"y", "file", 3, none⟩]⟩] ∧
    "file" ≠ "directory" :=
  ⟨rfl, by decide⟩

/-- C2 (amended): the code never reclassifies an existing node — a node's
kind is fixed at creation.  Every tree node has kind directory or file,
and a node has kind file only if some member of the sequence has exactly
that node's path and is not flagged as a directory (nodes created as
non-terminal segments are always directories); an entry recorded as a
file and later found to contain children keeps kind file. -/
theorem C2_no_reclassification :
    ∀ (d : Nat) (ms : List TarMember) (p : List String) (nd : NodeDict),
      findPath p (buildTree d ms) = some nd →
      (nd.type = "directory" ∨ nd.type = "file") ∧
      (nd.type = "file" →
        ∃ m ∈ ms, pathParts m.name = p ∧ m.isdir = false ∧ nd.size = m.size) := by
  intro d ms p nd h
  unfold buildTree at h
  rcases foldl_processMember_origin d ms [] p nd h with
    ⟨nd0, hfp, _, _, _⟩ | ⟨ht, hs⟩ | ⟨m, hm, hp2, ht, hs⟩
  · rw [findPath_nil] at hfp
    exact absurd hfp (by simp)
  · refine ⟨Or.inl ht, fun hf => ?_⟩
    rw [ht] at hf
    exact absurd hf (by decide)
  · cases hisdir : m.isdir
    · rw [hisdir] at ht
      simp only [Bool.false_eq_true, if_false] at ht
      exact ⟨Or.inr ht, fun _ => ⟨m, hm, hp2, hisdir, hs⟩⟩
    · rw [hisdir] at ht
      simp only [if_true] at ht
      refine ⟨Or.inl ht, fun hf => ?_⟩
      rw [ht] at hf
      exact absurd hf (by decide)

/-- C2 witness: the amended theorem at the concrete reclassification input,
locating the file entry that gave x its kind. -/
theorem C2_no_reclassification_witness :
    ∃ m ∈ [(⟨"x", false, 5⟩ : TarMember), ⟨"x/y", false, 3⟩],
      pathParts m.name = ["x"] ∧ m.isdir = false ∧
      NodeDict.size ⟨"x", "file", 5, [("y", ⟨"y", "file", 3, []⟩)]⟩ = m.size := by
  have h := C2_no_reclassification 5 [⟨"x", false, 5⟩, ⟨"x/y", false, 3⟩] ["x"]
    ⟨"x", "file", 5, [("y", ⟨"y", "file", 3, []⟩)]⟩ rfl
  exact h.2 rfl

/-- C3 counterexample: a childless directory serializes with children
absent (None), and a file node that acquired children serializes with a
populated children list — both directions of the claim fail. -/
theorem C3_counterexample :
    get_image_files 5 [⟨"d", true, 0⟩] = [⟨"d", "directory", 0, none⟩] ∧
    get_image_files 5 [⟨"x", false, 5⟩, ⟨"x/y", false, 3⟩] =
      [⟨"x", "file", 5, some [⟨"y", "file", 3, none⟩]⟩] :=
  ⟨rfl, rfl⟩

/-- C3 (amended): in the serialized output the children field is never a
present-but-empty sequence: it is absent exactly for nodes with no
children, regardless of the node's kind — a childless directory has
children absent, and a file node that acquired children has them present
and non-empty. -/
theorem C3_children_present_iff_nonempty :
    ∀ (d : Nat) (ms : List TarMember),
      treeLevelsOk noEmptyOk (get_image_files d ms) = true := by
  intro d ms
  unfold get_image_files
  exact dict_to_nodes_levelsOk noEmptyOk (fun _ => True) (fun _ _ _ _ _ => trivial)
    (fun d2 _ => noEmptyOk_dict_to_nodes d2) (buildTree d ms) trivial

/-- C4: at every level of the serialized output, directories precede files
and names ascend (case-sensitive) within each kind group; the mixed level
(b.txt file, a directory, a.txt file) serializes in the order
a, a.txt, b.txt. -/
theorem C4_sorted_levels :
    (∀ (d : Nat) (ms : List TarMember),
      treeLevelsOk levelSortedOk (get_image_files d ms) = true) ∧
    get_image_files 5 [⟨"b.txt", false, 1⟩, ⟨"a", true, 0⟩, ⟨"a.txt", false, 2⟩] =
      [⟨"a", "directory", 0, none⟩, ⟨"a.txt", "file", 2, none⟩,
       ⟨"b.txt", "file", 1, none⟩] := by
  constructor
  · intro d ms
    unfold get_image_files
    exact dict_to_nodes_levelsOk levelSortedOk (fun _ => True) (fun _ _ _ _ _ => trivial)
      (fun d2 _ => sortNodes_levelSortedOk (dictToNodesCore d2)) (buildTree d ms) trivial
  · rfl

/-- C5: an entry whose segment count exceeds max_depth contributes nothing
at all — processing it leaves the tree unchanged, so the final output with
the entry present anywhere in the sequence equals the output without it. -/
theorem C5_deep_entries_dropped :
    ∀ (d : Nat) (ms1 ms2 : List TarMember) (m : TarMember)
      (tree : List (String × NodeDict)),
      (pathParts m.name).length > d →
      processMember d tree m = tree ∧
      get_image_files d (ms1 ++ m :: ms2) = get_image_files d (ms1 ++ ms2) := by
  intro d ms1 ms2 m tree h
  refine ⟨processMember_skip d tree m (Or.inr h), ?_⟩
  unfold get_image_files buildTree
  rw [List.foldl_append, List.foldl_cons, List.foldl_append,
    processMember_skip d _ m (Or.inr h)]

/-- C5 witness: a six-segment entry with max_depth 5 is dropped. -/
theorem C5_deep_entries_dropped_witness :
    (pathParts ("a/b/c/d/e/f")).length > 5 ∧
    get_image_files 5 ([⟨"top", true, 0⟩] ++ (⟨"a/b/c/d/e/f", false, 9⟩ : TarMember)
        :: [⟨"z", false, 4⟩]) =
      get_image_files 5 ([⟨"top", true, 0⟩] ++ [⟨"z", false, 4⟩]) := by
  have h : (pathParts ("a/b/c/d/e/f")).length > 5 := by decide
  exact ⟨h, (C5_deep_entries_dropped 5 [⟨"top", true, 0⟩] [⟨"z", false, 4⟩]
    ⟨"a/b/c/d/e/f", false, 9⟩ [] h).2⟩

/-- C9: at every level of the serialized output sibling names are pairwise
distinct — children are keyed by path segment, so a segment name occurs at
most once per level. -/
theorem C9_sibling_names_distinct :
    ∀ (d : Nat) (ms : List TarMember),
      treeLevelsOk levelNamesOk (get_image_files d ms) = true := by
  intro d ms
  unfold get_image_files
  exact dict_to_nodes_levelsOk levelNamesOk (fun d2 => levelWF d2 = true)
    levelWF_children_of_mem
    (fun d2 h2 => levelNamesOk_dict_to_nodes d2 h2)
    (buildTree d ms) (levelWF_buildTree d ms)

/-- C10: the fold and serialization are deterministic — equal member
sequences and equal max_depth give identical output. -/
theorem C10_deterministic :
    ∀ (d1 d2 : Nat) (ms1 ms2 : List TarMember),
      d1 = d2 → ms1 = ms2 → get_image_files d1 ms1 = get_image_files d2 ms2 := by
  intro d1 d2 ms1 ms2 h1 h2
  rw [h1, h2]

/-- C10 witness: determinism applied at a concrete run. -/
theorem C10_deterministic_witness :
    get_image_files 5 [⟨"etc/passwd", false, 1200⟩] =
      get_image_files 5 [⟨"etc/passwd", false, 1200⟩] :=
  C10_deterministic 5 5 [⟨"etc/passwd", false, 1200⟩] [⟨"etc/passwd", false, 1200⟩]
    rfl rfl

theorem head_dropWhile_not :
    ∀ (l : List Char) (c : Char),
      (l.dropWhile isStripChar).head? = some c → isStripChar c = false := by
  intro l
  induction l with
  | nil =>
      intro c h
      simp at h
  | cons x xs ih =>
      intro c h
      by_cases hx : isStripChar x
      · rw [List.dropWhile_cons, if_pos hx] at h
        exact ih c h
      · rw [List.dropWhile_cons, if_neg hx] at h
        simp at h
        subst h
        simpa using hx

/-- C6 counterexample: the claim derives segments by splitting on "/" and
discarding empty leading and trailing segments only; but the code strips
all leading and trailing dot characters too, so the member named .hidden
yields the segment hidden, not .hidden, and the output node loses the
dot. -/
theorem C6_counterexample :
    pathParts (".hidden") = ["hidden"] ∧ specSegments (".hidden") = [".hidden"] ∧
    pathParts (".hidden") ≠ specSegments (".hidden") ∧
    get_image_files 5 [⟨".hidden", false, 7⟩] = [⟨"hidden", "file", 7, none⟩] :=
  ⟨by decide, by decide, by decide, rfl⟩

/-- C6 (amended): path segments are the member name with all leading and
trailing dot and slash characters stripped, then split on "/" — interior
characters are untouched and the strip is maximal (the remaining ends are
never dot or slash); members whose name consists only of dot and slash
characters (so "", ".", "./") are skipped and change nothing. -/
theorem C6_strip_then_split :
    ∀ name : String,
      pathParts name = splitSlash (stripDotSlash name) ∧
      (∃ u v2 : List Char, name.data = u ++ (stripDotSlash name).data ++ v2 ∧
        (∀ c ∈ u, isStripChar c = true) ∧ (∀ c ∈ v2, isStripChar c = true)) ∧
      (∀ c, (stripDotSlash name).data.head? = some c → isStripChar c = false) ∧
      (∀ c, (stripDotSlash name).data.reverse.head? = some c → isStripChar c = false) ∧
      (∀ (d : Nat) (tree : List (String × NodeDict)) (m : TarMember),
        (∀ c ∈ m.name.data, isStripChar c = true) → processMember d tree m = tree) := by
  intro name
  have key : ∀ l : List Char,
      l = (l.reverse.dropWhile isStripChar).reverse ++
          (l.reverse.takeWhile isStripChar).reverse := by
    intro l
    have h2 := congrArg List.reverse (List.takeWhile_append_dropWhile isStripChar l.reverse)
    rw [List.reverse_append, List.reverse_reverse] at h2
    exact h2.symm
  have hdata : (stripDotSlash name).data =
      ((name.data.dropWhile isStripChar).reverse.dropWhile isStripChar).reverse := rfl
  refine ⟨rfl, ⟨name.data.takeWhile isStripChar,
    ((name.data.dropWhile isStripChar).reverse.takeWhile isStripChar).reverse,
    ?_, ?_, ?_⟩, ?_, ?_, ?_⟩
  · rw [hdata, List.append_assoc]
    conv_lhs => rw [← List.takeWhile_append_dropWhile isStripChar name.data]
    exact congrArg (fun x => name.data.takeWhile isStripChar ++ x)
      (key (name.data.dropWhile isStripChar))
  · intro c hc
    exact List.mem_takeWhile_imp hc
  · intro c hc
    exact List.mem_takeWhile_imp (List.mem_reverse.mp hc)
  · intro c hc
    rw [hdata] at hc
    have hc2 : (name.data.dropWhile isStripChar).head? = some c := by
      conv_lhs => rw [key (name.data.dropWhile isStripChar)]
      rw [List.head?_append, hc]
      rfl
    exact head_dropWhile_not name.data c hc2
  · intro c hc
    rw [hdata, List.reverse_reverse] at hc
    exact head_dropWhile_not (name.data.dropWhile isStripChar).reverse c hc
  · intro d tree m hm
    have hstrip : (stripDotSlash m.name).data = [] := by
      show ((m.name.data.dropWhile isStripChar).reverse.dropWhile isStripChar).reverse = []
      rw [List.dropWhile_eq_nil_iff.mpr hm]
      rfl
    have hpp : pathParts m.name = [""] := by
      unfold pathParts splitSlash
      rw [hstrip]
      rfl
    exact processMember_skip d tree m (Or.inl (Or.inr hpp))

/-- C6 witness: the amended skip clause at the member named "./". -/
theorem C6_strip_then_split_witness :
    processMember 5 [] (⟨"./", false, 0⟩ : TarMember) = [] :=
  (C6_strip_then_split (".")).2.2.2.2 5 [] ⟨"./", false, 0⟩ (by decide)

/-- C7: with the runtime reachable, an identifier that is not present
locally and whose pull fails to resolve it (ImageNotFound, or APIError
with status 404) fails with the 404 not-found HTTPException rather than
a generic error; and a locally present image is returned without any
pull. -/
theorem C7_not_found_and_no_pull :
    ∀ (env : DockerEnv) (name : String),
      env.clientInit = true →
      ((name ∉ env.localImages →
        (env.pullOutcome name = PullOutcome.imageNotFound ∨
         env.pullOutcome name = PullOutcome.apiError 404) →
        (get_image_metadata env name).1 = MetaResult.httpNotFound) ∧
       (name ∈ env.localImages → (get_image_metadata env name).2 = false)) := by
  intro env name hinit
  constructor
  · intro hnl hpull
    rcases hpull with h | h <;> simp [get_image_metadata, hinit, hnl, h]
  · intro hl
    simp [get_image_metadata, hinit, hl]

/-- C7 witness: a concrete runtime state with one local image; the absent
identifier yields the 404 result, the present one is served without
pulling. -/
theorem C7_not_found_and_no_pull_witness :
    (get_image_metadata
        ⟨true, ["present"], fun _ => PullOutcome.imageNotFound,
         fun _ => ⟨"", none, "", "", 0, none, none, none, []⟩⟩ "missing").1 =
      MetaResult.httpNotFound ∧
    (get_image_metadata
        ⟨true, ["present"], fun _ => PullOutcome.imageNotFound,
         fun _ => ⟨"", none, "", "", 0, none, none, none, []⟩⟩ "present").2 = false := by
  constructor
  · exact (C7_not_found_and_no_pull
      ⟨true, ["present"], fun _ => PullOutcome.imageNotFound,
       fun _ => ⟨"", none, "", "", 0, none, none, none, []⟩⟩ "missing" rfl).1
      (by decide) (Or.inl rfl)
  · exact (C7_not_found_and_no_pull
      ⟨true, ["present"], fun _ => PullOutcome.imageNotFound,
       fun _ => ⟨"", none, "", "", 0, none, none, none, []⟩⟩ "present" rfl).2
      (by decide)

end ImageAnalyzer
